import Mathlib

/-!
Shallow embedding of the resistivity anisotropy inversion core of
`src/main.py` (class `ARI`): the regularized nonlinear objective, the
per-sample inversion driver, the closed-form quadratic solver, the
forward simulator with its error metric, and the Monte Carlo
uncertainty-quantification loop.  Floating-point numbers are modelled as
real numbers; the SciPy optimizer is an abstract minimizer parameter
(claims that depend on it state its documented contract explicitly); the
random draws of the UQ loop are passed in as explicit noise vectors.
-/

namespace ARI

/-- Solver and ensemble options, mirroring the fields set in `ARI.__init__`
(lines 16-24 of `src/main.py`). -/
structure Config where
  method : String := "L-BFGS-B"
  lambda_reg : ℝ := 1/10000
  tolerance : ℝ := 1/1000
  maxiter : ℕ := 100
  x0 : ℝ × ℝ := (1/2, 3/2)
  Wd_matrix : Bool := true
  n_ensemble : ℕ := 100
  noise_lvl : ℝ := 10

/-- Result record of one `scipy.optimize.minimize` call: the solution
vector `x = (Csh, Rs)`, the objective value at the solution (field `fun`
of the SciPy result, called `fn` here because `fun` is a Lean keyword),
the jacobian two-vector and the number of function evaluations. -/
structure MinResult where
  x : ℝ × ℝ
  fn : ℝ
  jac : ℝ × ℝ
  nfev : ℕ

/-- One box bound `(lower, upper)`; `none` encodes the Python `None`
(absent bound). -/
abbrev Bound : Type := Option ℝ × Option ℝ

/-- Abstract model of `scipy.optimize.minimize`: a function of the
objective, the initial guess, the box bounds, the method name, the
tolerance and the iteration cap.  The L-BFGS-B algorithm itself is
external library code, not code of this repository; claims that depend on
it only use its documented box-constraint contract as a hypothesis. -/
abbrev Minimizer : Type :=
  ((ℝ × ℝ) → ℝ) → (ℝ × ℝ) → (Bound × Bound) → String → ℝ → ℕ → MinResult

/-- A well-log table: the columns produced by `load_data`, as parallel
lists (one entry per depth sample).  The `Csh_lin` column is absent
(`none`) until `resistivity_inversion` assigns it at line 107. -/
structure Frame where
  AT10 : List ℝ
  AT30 : List ℝ
  AT60 : List ℝ
  AT90 : List ℝ
  GR : List ℝ
  Rv : List ℝ
  Rh : List ℝ
  Csh_lin : Option (List ℝ) := none

/-- Index of the first maximum of a list, following `np.argmax`: the
strict comparison keeps the first occurrence on ties.  The running state
is the next index `i`, the best index `bi` and the best value `bv`. -/
noncomputable def argmaxFrom (i : ℕ) (bi : ℕ) (bv : ℝ) : List ℝ → ℕ
  | [] => bi
  | x :: xs => if bv < x then argmaxFrom (i+1) i x xs else argmaxFrom (i+1) bi bv xs

/-- Index of the first maximum of a list (`np.argmax`); 0 on the empty
list, which the code only reaches for empty frames. -/
noncomputable def argmaxIdx : List ℝ → ℕ
  | [] => 0
  | x :: xs => argmaxFrom 1 0 x xs

/-- Minimum of a list, as the pandas `Series.min` on a nonempty column;
0 on the empty list (unused by any claim). -/
noncomputable def listMin : List ℝ → ℝ
  | [] => 0
  | x :: xs => xs.foldl min x

/-- Maximum of a list, as the pandas `Series.max` on a nonempty column;
0 on the empty list (unused by any claim). -/
noncomputable def listMax : List ℝ → ℝ
  | [] => 0
  | x :: xs => xs.foldl max x

/-- Rvsh resolution of lines 103-104: the override when given, otherwise
the Rv value at the sample of maximum GR. -/
noncomputable def resolveRvsh (df : Frame) (o : Option ℝ) : ℝ :=
  o.getD (df.Rv.getD (argmaxIdx df.GR) 0)

/-- Rhsh resolution of lines 105-106: the override when given, otherwise
the Rh value at the sample of maximum GR. -/
noncomputable def resolveRhsh (df : Frame) (o : Option ℝ) : ℝ :=
  o.getD (df.Rh.getD (argmaxIdx df.GR) 0)

/-- The column assigned at line 107: min-max normalized GR. -/
noncomputable def cshLin (df : Frame) : List ℝ :=
  df.GR.map (fun g => (g - listMin df.GR) / (listMax df.GR - listMin df.GR))

/-- The nested `objective` function of lines 108-114, translated term by
term: residuals of the two mixing equations, optional diagonal weighting,
Euclidean norm plus L2 regularization. -/
noncomputable def objective (cfg : Config) (Rvsh Rhsh Rv Rh : ℝ) (v : ℝ × ℝ) : ℝ :=
  let Csh := v.1
  let Rs := v.2
  let eq1 := (Csh*Rvsh + (1-Csh)*Rs) - Rv
  let eq2 := (Csh/Rhsh + (1-Csh)/Rs) - (1/Rh)
  let eqs := if cfg.Wd_matrix then (eq1/Rv, eq2*Rh) else (eq1, eq2)
  Real.sqrt (eqs.1^2 + eqs.2^2) + cfg.lambda_reg * Real.sqrt (Csh^2 + Rs^2)

/-- The objective in the words of the spec: explicit weights `w1`, `w2`
applied to the raw residuals, Euclidean norm of the weighted residual
vector, plus the regularization coefficient times the Euclidean norm of
`(Csh, Rs)`.  Written from the spec, for comparison with `objective`. -/
noncomputable def objective_spec (cfg : Config) (Rvsh Rhsh Rv Rh : ℝ) (v : ℝ × ℝ) : ℝ :=
  let Csh := v.1
  let Rs := v.2
  let eq1 := (Csh*Rvsh + (1-Csh)*Rs) - Rv
  let eq2 := (Csh/Rhsh + (1-Csh)/Rs) - (1/Rh)
  let w1 : ℝ := if cfg.Wd_matrix then 1/Rv else 1
  let w2 : ℝ := if cfg.Wd_matrix then Rh else 1
  Real.sqrt ((w1*eq1)^2 + (w2*eq2)^2) + cfg.lambda_reg * Real.sqrt (Csh^2 + Rs^2)

/-- The bounds passed to the minimizer at line 123: Csh in [0, 1], Rs
unbounded on both sides. -/
def usedBounds : Bound × Bound := ((some 0, some 1), (none, none))

/-- One per-sample call of `optimize.minimize` (lines 120-126): the
objective closed over the end-member and the sample, the fixed initial
guess, the fixed bounds, the configured method, tolerance and iteration
cap. -/
noncomputable def solveRow (cfg : Config) (m : Minimizer) (Rvsh Rhsh Rv Rh : ℝ) : MinResult :=
  m (objective cfg Rvsh Rhsh Rv Rh) cfg.x0 usedBounds cfg.method cfg.tolerance cfg.maxiter

/-- The frame built by the nested `simulate` function. -/
structure SimOut where
  Rv_sim : List ℝ
  Rh_sim : List ℝ

/-- The frame built by the nested `error` function. -/
structure ErrOut where
  Rv_err : List ℝ
  Rh_err : List ℝ

/-- The nested `simulate` function of lines 133-138: the forward model
applied to the solved (Csh, Rs) columns; the horizontal sum of
conductances is computed first and its reciprocal is the stored column. -/
noncomputable def simulate (Rvsh Rhsh : ℝ) (Csh Rs : List ℝ) : SimOut :=
  let RvS := List.zipWith (fun c r => c*Rvsh + (1-c)*r) Csh Rs
  let RhS := List.zipWith (fun c r => c/Rhsh + (1-c)/r) Csh Rs
  { Rv_sim := RvS, Rh_sim := RhS.map (fun x => 1/x) }

/-- The nested `error` function of lines 139-145: absolute relative
percent error of each simulated curve against the measured one. -/
noncomputable def error (RvTrue RhTrue RvPred RhPred : List ℝ) : ErrOut :=
  { Rv_err := List.zipWith (fun p t => |(p - t) / t| * 100) RvPred RvTrue,
    Rh_err := List.zipWith (fun p t => |(p - t) / t| * 100) RhPred RhTrue }

/-- The joined result table `val.join(sol).join(sim).join(err)` of
line 150, column by column. -/
structure InvOut where
  AT10 : List ℝ
  AT30 : List ℝ
  AT60 : List ℝ
  AT90 : List ℝ
  GR : List ℝ
  Csh_lin : List ℝ
  Rv : List ℝ
  Rh : List ℝ
  Csh : List ℝ
  Rs : List ℝ
  fn : List ℝ
  nfev : List ℕ
  jac1 : List ℝ
  jac2 : List ℝ
  norm_jac : List ℝ
  Rv_sim : List ℝ
  Rh_sim : List ℝ
  Rv_err : List ℝ
  Rh_err : List ℝ

/-- The empty result table, used only as the fallback of list lookups. -/
def emptyInvOut : InvOut :=
  { AT10 := [], AT30 := [], AT60 := [], AT90 := [], GR := [], Csh_lin := [],
    Rv := [], Rh := [], Csh := [], Rs := [], fn := [], nfev := [],
    jac1 := [], jac2 := [], norm_jac := [], Rv_sim := [], Rh_sim := [],
    Rv_err := [], Rh_err := [] }

/-- Pure value of `ARI.resistivity_inversion` (lines 102-151): the table
stored into `self.res_inv` and returned.  The minimizer is abstract; the
side effects on the input frame and on the object are modelled separately
by `resistivity_inversion_full`.  Each row of the Rv and Rh columns is solved
independently with the same fixed initial guess; the solved columns are
joined with the carried input columns, the forward simulation and the
error metric. -/
noncomputable def resistivity_inversion_out (cfg : Config) (m : Minimizer) (df : Frame)
    (RvshO RhshO : Option ℝ) : InvOut :=
  let Rvsh := resolveRvsh df RvshO
  let Rhsh := resolveRhsh df RhshO
  let rows := df.Rv.zip df.Rh
  let sols := rows.map (fun p => solveRow cfg m Rvsh Rhsh p.1 p.2)
  let csh := sols.map (fun s => s.x.1)
  let rs := sols.map (fun s => s.x.2)
  let sim := simulate Rvsh Rhsh csh rs
  let err := error (rows.map (fun p => p.1)) (rows.map (fun p => p.2)) sim.Rv_sim sim.Rh_sim
  { AT10 := df.AT10, AT30 := df.AT30, AT60 := df.AT60, AT90 := df.AT90,
    GR := df.GR, Csh_lin := cshLin df,
    Rv := rows.map (fun p => p.1), Rh := rows.map (fun p => p.2),
    Csh := csh, Rs := rs,
    fn := sols.map (fun s => s.fn), nfev := sols.map (fun s => s.nfev),
    jac1 := sols.map (fun s => s.jac.1), jac2 := sols.map (fun s => s.jac.2),
    norm_jac := sols.map (fun s => Real.sqrt (s.jac.1^2 + s.jac.2^2)),
    Rv_sim := sim.Rv_sim, Rh_sim := sim.Rh_sim,
    Rv_err := err.Rv_err, Rh_err := err.Rh_err }

/-- The mutable result fields the methods of the `ARI` object assign
(`self.res_inv` at line 150, `self.quad_inv` at line 171). -/
structure ARIState where
  res_inv : Option InvOut := none
  quad_inv : Option (List (Option ℂ × Option ℂ)) := none

/-- `ARI.resistivity_inversion` with its side effects: the returned triple
is the updated object state (line 150 stores the table on
`self.res_inv`), the input frame as the caller sees it after the call
(line 107 assigns the `Csh_lin` column on the input frame itself), and
the returned table. -/
noncomputable def resistivity_inversion_full (cfg : Config) (m : Minimizer) (st : ARIState)
    (df : Frame) (RvshO RhshO : Option ℝ) : ARIState × Frame × InvOut :=
  let out := resistivity_inversion_out cfg m df RvshO RhshO
  ({ st with res_inv := some out }, { df with Csh_lin := some (cshLin df) }, out)

/-- Modelled from the spec: the error taxonomy names `InvalidSampleError`
and `ConfigurationError`, but the source under `src/` defines neither
class and contains no `raise`, so the run wrapper below always returns
`Except.ok`. -/
inductive InvError where
  | invalidSample : InvError
  | configuration : InvError

/-- A call of `ARI.resistivity_inversion` together with its exception
channel: the Python body performs no validation and contains no `raise`,
so the embedding always returns normally with the full result table. -/
noncomputable def resistivity_inversion_run (cfg : Config) (m : Minimizer) (df : Frame)
    (RvshO RhshO : Option ℝ) : Except InvError InvOut :=
  Except.ok (resistivity_inversion_out cfg m df RvshO RhshO)

/-- Root finder for the coefficient list `[a, b, c]`, following
`np.roots`: leading zero coefficients are stripped, a degenerate linear
polynomial yields one root, a constant or all-zero polynomial yields no
root, and a negative discriminant yields the conjugate complex pair.  No
claim depends on the order of a two-root result; the quadratic-formula
order is used here. -/
noncomputable def np_roots2 (a b c : ℝ) : List ℂ :=
  if a = 0 then
    if b = 0 then [] else [Complex.ofReal (-c/b)]
  else if 0 ≤ b^2 - 4*a*c then
    [Complex.ofReal ((-b + Real.sqrt (b^2 - 4*a*c))/(2*a)),
     Complex.ofReal ((-b - Real.sqrt (b^2 - 4*a*c))/(2*a))]
  else
    [(Complex.ofReal (-b) + Complex.ofReal (Real.sqrt (4*a*c - b^2)) * Complex.I)
       / Complex.ofReal (2*a),
     (Complex.ofReal (-b) - Complex.ofReal (Real.sqrt (4*a*c - b^2)) * Complex.I)
       / Complex.ofReal (2*a)]

/-- The storage policy of lines 164-170: one root goes into the first slot
with NaN in the second, two roots fill both slots in the order returned
by the root finder, otherwise both slots are NaN.  The float NaN marker
is modelled as `none`; a root is stored unchanged, complex or not. -/
def storeRoots : List ℂ → Option ℂ × Option ℂ
  | [r] => (some r, none)
  | [r1, r2] => (some r1, some r2)
  | _ => (none, none)

/-- `ARI.quadratic_inversion` (lines 153-172): per sample, the three
coefficients are formed from (Rv, Rh) and the resolved end-member, the
roots of the quadratic are computed, and the root pair is stored by
count.  The returned list is the value stored into `self.quad_inv`. -/
noncomputable def quadratic_inversion (df : Frame) (RvshO RhshO : Option ℝ) :
    List (Option ℂ × Option ℂ) :=
  let Rvsh := resolveRvsh df RvshO
  let Rhsh := resolveRhsh df RhshO
  (df.Rv.zip df.Rh).map (fun p =>
    storeRoots (np_roots2 (p.2*Rvsh - p.2*Rhsh) (p.1^2 + Rvsh*Rhsh - 2*p.2*Rhsh)
      (p.1*Rhsh - p.2*Rhsh)))

/-- Population standard deviation of a list, as `np.std` (ddof = 0). -/
noncomputable def np_std (l : List ℝ) : ℝ :=
  Real.sqrt (((l.map (fun x => (x - l.sum / (l.length : ℝ))^2)).sum) / (l.length : ℝ))

/-- `ARI.inversion_uq` (lines 174-189): the standard deviations of the two
curves are taken once from the clean input frame, each realization
perturbs both curves with its own noise vector taken from the supplied
list of draws, and the nonlinear inversion is run on the noisy frame with
no end-member override.  Randomness is modelled by passing the
standard-normal draws `es` (one vector per realization) explicitly. -/
noncomputable def inversion_uq (cfg : Config) (m : Minimizer) (df : Frame)
    (es : List (List ℝ)) : List InvOut :=
  let sv := np_std df.Rv
  let sh := np_std df.Rh
  es.map (fun e =>
    resistivity_inversion_out cfg m
      { df with
          Rv := List.zipWith (fun r ei => r + ei * (cfg.noise_lvl/100) * sv) df.Rv e,
          Rh := List.zipWith (fun r ei => r + ei * (cfg.noise_lvl/100) * sh) df.Rh e }
      none none)

/-- The documented box-constraint contract of the bounded solver,
instantiated at the bounds the code passes: the first component of the
returned solution stays inside [0, 1]. -/
def RespectsCshBounds (m : Minimizer) : Prop :=
  ∀ f x0 meth tol mi, 0 ≤ (m f x0 usedBounds meth tol mi).x.1 ∧
    (m f x0 usedBounds meth tol mi).x.1 ≤ 1

/-- A configuration with full-scale noise, used by concrete evaluations. -/
noncomputable def cfgEx : Config := { noise_lvl := 100 }

/-- A concrete minimizer that returns the initial guess unchanged, used by
concrete evaluations of the plumbing around the abstract solver. -/
noncomputable def mEx : Minimizer :=
  fun _f x0 _b _meth _tol _mi => { x := x0, fn := 0, jac := (0, 0), nfev := 1 }

/-- A concrete minimizer that keeps the Csh component at 1/2 and passes
the initial Rs through; it honors the Csh box by construction. -/
noncomputable def mW : Minimizer :=
  fun _f x0 _b _meth _tol _mi => { x := (1/2, x0.2), fn := 0, jac := (0, 0), nfev := 1 }

/-- A concrete two-sample frame: the first sample carries the maximum GR. -/
noncomputable def dfEx : Frame :=
  { AT10 := [0, 0], AT30 := [0, 0], AT60 := [0, 0], AT90 := [0, 0],
    GR := [5, 0], Rv := [1, 3], Rh := [1, 3] }

/-- One ensemble realization worth of concrete noise draws. -/
noncomputable def esEx : List (List ℝ) := [[1, 1]]

/-- A concrete one-sample frame whose Rv is non-positive. -/
noncomputable def dfBad : Frame :=
  { AT10 := [0], AT30 := [0], AT60 := [0], AT90 := [0],
    GR := [0], Rv := [-1], Rh := [1] }

/-- A fresh object state: nothing stored yet. -/
def stEx : ARIState := {}

/-- C1: for every sample (Rv, Rh) and end-member (Rvsh, Rhsh), the
objective of the nonlinear solver evaluated at (Csh, Rs) equals the
Euclidean norm of the residual vector [w1*eq1, w2*eq2] plus lambda_reg
times the Euclidean norm of (Csh, Rs), with w1 = 1/Rv and w2 = Rh when
weighting is enabled and w1 = w2 = 1 when it is disabled. -/
theorem objective_eq_weighted_norm_form (cfg : Config) (Rvsh Rhsh Rv Rh : ℝ) (v : ℝ × ℝ) :
    objective cfg Rvsh Rhsh Rv Rh v = objective_spec cfg Rvsh Rhsh Rv Rh v := by
  unfold objective objective_spec
  cases h : cfg.Wd_matrix
  · simp only [Bool.false_eq_true, if_false]
    congr 2
    ring
  · simp only [if_true]
    congr 2
    ring

/-- C5: the forward simulator returns Rv_sim = Csh*Rvsh + (1-Csh)*Rs and
Rh_sim = 1 / (Csh/Rhsh + (1-Csh)/Rs) per sample, and the error metric
returns the absolute relative percent errors of the simulated curves
against the measured ones. -/
theorem simulate_and_error_formulas (Rvsh Rhsh : ℝ) (Csh Rs RvT RhT RvP RhP : List ℝ) :
    (simulate Rvsh Rhsh Csh Rs).Rv_sim
        = List.zipWith (fun c r => c*Rvsh + (1-c)*r) Csh Rs ∧
    (simulate Rvsh Rhsh Csh Rs).Rh_sim
        = List.zipWith (fun c r => 1 / (c/Rhsh + (1-c)/r)) Csh Rs ∧
    (error RvT RhT RvP RhP).Rv_err
        = List.zipWith (fun p t => |(p - t) / t| * 100) RvP RvT ∧
    (error RvT RhT RvP RhP).Rh_err
        = List.zipWith (fun p t => |(p - t) / t| * 100) RhP RhT := by
  refine ⟨rfl, ?_, rfl, rfl⟩
  simp [simulate, List.map_zipWith]

/-- C6: every realization perturbs the curves as Rv + e*(noise_lvl/100)*sigma_v
and Rh + e*(noise_lvl/100)*sigma_h, with one shared noise vector e per
realization applied to both curves, and with the standard deviations
taken from the original clean frame for every realization. -/
theorem inversion_uq_noise_model (cfg : Config) (m : Minimizer) (df : Frame)
    (es : List (List ℝ)) :
    inversion_uq cfg m df es = es.map (fun e =>
      resistivity_inversion_out cfg m
        { df with
            Rv := List.zipWith (fun r ei => r + ei * (cfg.noise_lvl/100) * np_std df.Rv) df.Rv e,
            Rh := List.zipWith (fun r ei => r + ei * (cfg.noise_lvl/100) * np_std df.Rh) df.Rh e }
        none none) := rfl

/-- Running the inversion with no end-member override equals running it
with the end-member resolved from its own input frame supplied as the
override. -/
theorem resistivity_inversion_out_resolve (cfg : Config) (m : Minimizer) (df : Frame) :
    resistivity_inversion_out cfg m df none none =
      resistivity_inversion_out cfg m df (some (resolveRvsh df none)) (some (resolveRhsh df none)) := by
  simp [resistivity_inversion_out, resolveRvsh, resolveRhsh]

/-- C2 (amended): the UQ driver calls the inversion on each noisy frame
with no end-member override, so the end-member is re-estimated from the
noisy data of each realization (the noisy Rv and Rh at the sample of
maximum GR), not reused from the unperturbed run. -/
theorem inversion_uq_reestimates_endmember (cfg : Config) (m : Minimizer) (df : Frame)
    (es : List (List ℝ)) :
    inversion_uq cfg m df es = es.map (fun e =>
      let dfn : Frame :=
        { df with
            Rv := List.zipWith (fun r ei => r + ei * (cfg.noise_lvl/100) * np_std df.Rv) df.Rv e,
            Rh := List.zipWith (fun r ei => r + ei * (cfg.noise_lvl/100) * np_std df.Rh) df.Rh e }
      resistivity_inversion_out cfg m dfn (some (resolveRvsh dfn none)) (some (resolveRhsh dfn none))) := by
  have h0 : inversion_uq cfg m df es = es.map (fun e =>
      resistivity_inversion_out cfg m
        { df with
            Rv := List.zipWith (fun r ei => r + ei * (cfg.noise_lvl/100) * np_std df.Rv) df.Rv e,
            Rh := List.zipWith (fun r ei => r + ei * (cfg.noise_lvl/100) * np_std df.Rh) df.Rh e }
        none none) := rfl
  rw [h0]
  refine List.map_congr_left (fun e _ => ?_)
  exact resistivity_inversion_out_resolve cfg m _

/-- C3 (counterexample): on a frame whose only sample has Rv = -1 the
inversion call does not raise; it returns the full result table normally,
so no `InvalidSampleError` aborts the run. -/
theorem no_invalid_sample_error :
    dfBad.Rv.getD 0 0 ≤ 0 ∧
    resistivity_inversion_run cfgEx mEx dfBad none none =
      Except.ok (resistivity_inversion_out cfgEx mEx dfBad none none) ∧
    resistivity_inversion_run cfgEx mEx dfBad none none ≠
      Except.error InvError.invalidSample := by
  refine ⟨by norm_num [dfBad], rfl, ?_⟩
  simp [resistivity_inversion_run]

/-- C3 (amended): the nonlinear inversion performs no validation of Rv or
Rh; every call returns normally with a solved row for every sample of the
input, non-positive resistivities included. -/
theorem resistivity_inversion_no_validation (cfg : Config) (m : Minimizer) (df : Frame)
    (RvshO RhshO : Option ℝ) :
    resistivity_inversion_run cfg m df RvshO RhshO =
      Except.ok (resistivity_inversion_out cfg m df RvshO RhshO) ∧
    (resistivity_inversion_out cfg m df RvshO RhshO).Csh.length =
      min df.Rv.length df.Rh.length := by
  refine ⟨rfl, ?_⟩
  simp [resistivity_inversion_out]

/-- C9 (counterexample): a concrete inversion call both rewrites the input
frame (the `Csh_lin` column is assigned onto it) and stores the result
table on the object, so the input table is not unchanged and result state
does persist on the inverter between calls. -/
theorem resistivity_inversion_mutates :
    (resistivity_inversion_full cfgEx mEx stEx dfEx none none).2.1 ≠ dfEx ∧
    (resistivity_inversion_full cfgEx mEx stEx dfEx none none).1 ≠ stEx := by
  constructor
  · intro h
    have h2 := congrArg Frame.Csh_lin h
    simp [resistivity_inversion_full, dfEx] at h2
  · intro h
    have h2 := congrArg ARIState.res_inv h
    simp [resistivity_inversion_full, stEx] at h2

/-- C9 (amended): each call of `resistivity_inversion` assigns the
`Csh_lin` column on the frame of the caller and overwrites `self.res_inv` with
the fresh result table; the rest of the state and frame is untouched. -/
theorem resistivity_inversion_effects (cfg : Config) (m : Minimizer) (st : ARIState)
    (df : Frame) (RvshO RhshO : Option ℝ) :
    resistivity_inversion_full cfg m st df RvshO RhshO =
      ({ st with res_inv := some (resistivity_inversion_out cfg m df RvshO RhshO) },
       { df with Csh_lin := some (cshLin df) },
       resistivity_inversion_out cfg m df RvshO RhshO) := rfl

/-- Concrete evaluation: the population standard deviation of [1, 3]. -/
lemma np_std_pair : np_std ([1, 3] : List ℝ) = 1 := by
  unfold np_std
  norm_num

/-- Concrete evaluation: the first maximum of [5, 0] sits at index 0. -/
lemma argmax_pair : argmaxIdx ([5, 0] : List ℝ) = 0 := by
  norm_num [argmaxIdx, argmaxFrom]

/-- Concrete evaluation: the first simulated Rv of the first realization,
as the code computes it (end-member re-estimated from the noisy frame,
whose Rv at the maximum-GR sample is 2). -/
lemma uq_first_rvsim_actual :
    ((inversion_uq cfgEx mEx dfEx esEx).getD 0 emptyInvOut).Rv_sim.getD 0 0 = 7/4 := by
  have h1 : np_std ([1, 3] : List ℝ) = 1 := np_std_pair
  have h2 : argmaxIdx ([5, 0] : List ℝ) = 0 := argmax_pair
  simp [inversion_uq, esEx, cfgEx, dfEx, resistivity_inversion_out, resolveRvsh,
    resolveRhsh, solveRow, mEx, simulate, h1, h2]
  norm_num

/-- Concrete evaluation: the first simulated Rv of the first realization
under the end-member of the unperturbed run (clean Rv at the maximum-GR
sample, which is 1). -/
lemma uq_first_rvsim_claimed :
    (((esEx.map (fun e =>
      resistivity_inversion_out cfgEx mEx
        { dfEx with
            Rv := List.zipWith (fun r ei => r + ei * (cfgEx.noise_lvl/100) * np_std dfEx.Rv) dfEx.Rv e,
            Rh := List.zipWith (fun r ei => r + ei * (cfgEx.noise_lvl/100) * np_std dfEx.Rh) dfEx.Rh e }
        (some (resolveRvsh dfEx none)) (some (resolveRhsh dfEx none)))).getD 0 emptyInvOut).Rv_sim).getD 0 0 = 5/4 := by
  have h1 : np_std ([1, 3] : List ℝ) = 1 := np_std_pair
  have h2 : argmaxIdx ([5, 0] : List ℝ) = 0 := argmax_pair
  simp [esEx, cfgEx, dfEx, resistivity_inversion_out, resolveRvsh,
    resolveRhsh, solveRow, mEx, simulate, h1, h2]
  norm_num

/-- C2 (counterexample): on a concrete frame and one concrete realization,
the UQ driver does not run the inversion with the end-member of the
unperturbed run: the realization it produces differs from the one the
claim describes, because the end-member is re-estimated from the noisy
curves. -/
theorem inversion_uq_endmember_counterexample :
    inversion_uq cfgEx mEx dfEx esEx ≠ esEx.map (fun e =>
      resistivity_inversion_out cfgEx mEx
        { dfEx with
            Rv := List.zipWith (fun r ei => r + ei * (cfgEx.noise_lvl/100) * np_std dfEx.Rv) dfEx.Rv e,
            Rh := List.zipWith (fun r ei => r + ei * (cfgEx.noise_lvl/100) * np_std dfEx.Rh) dfEx.Rh e }
        (some (resolveRvsh dfEx none)) (some (resolveRhsh dfEx none))) := by
  intro h
  have ha := uq_first_rvsim_actual
  rw [h, uq_first_rvsim_claimed] at ha
  norm_num at ha

/-- Quadratic formula over the complex numbers: a point of the form
(-b + w) / (2a) with w squaring to the discriminant is a root. -/
lemma quad_root_formula (a b c : ℝ) (w : ℂ) (ha : a ≠ 0)
    (hw : w^2 = (b:ℂ)^2 - 4*(a:ℂ)*(c:ℂ)) :
    (a:ℂ) * ((-(b:ℂ) + w)/(2*(a:ℂ)))^2 + (b:ℂ) * ((-(b:ℂ) + w)/(2*(a:ℂ))) + (c:ℂ) = 0 := by
  have ha2 : (a:ℂ) ≠ 0 := Complex.ofReal_ne_zero.mpr ha
  field_simp
  linear_combination 2*(a:ℂ)^2 * hw

/-- Soundness of the root finder: everything it returns is a root of the
input quadratic, over the complex numbers. -/
lemma np_roots2_is_root (a b c : ℝ) :
    ∀ z ∈ np_roots2 a b c, (a:ℂ)*z^2 + (b:ℂ)*z + (c:ℂ) = 0 := by
  intro z hz
  unfold np_roots2 at hz
  by_cases ha : a = 0
  · rw [if_pos ha] at hz
    by_cases hb : b = 0
    · rw [if_pos hb] at hz
      simp at hz
    · rw [if_neg hb] at hz
      simp only [List.mem_singleton] at hz
      subst hz
      have hb2 : (b:ℂ) ≠ 0 := Complex.ofReal_ne_zero.mpr hb
      rw [ha]
      push_cast
      field_simp
      ring
  · rw [if_neg ha] at hz
    by_cases hd : 0 ≤ b^2 - 4*a*c
    · rw [if_pos hd] at hz
      have hs : ((Real.sqrt (b^2 - 4*a*c) : ℝ) : ℂ)^2 = (b:ℂ)^2 - 4*(a:ℂ)*(c:ℂ) := by
        rw [← Complex.ofReal_pow, Real.sq_sqrt hd]
        push_cast
        ring
      simp only [List.mem_cons, List.not_mem_nil, or_false] at hz
      rcases hz with hz | hz
      · have hform : Complex.ofReal ((-b + Real.sqrt (b^2 - 4*a*c))/(2*a)) =
            (-(b:ℂ) + ((Real.sqrt (b^2 - 4*a*c) : ℝ) : ℂ))/(2*(a:ℂ)) := by
          push_cast
          ring
        rw [hz, hform]
        exact quad_root_formula a b c _ ha hs
      · have hform : Complex.ofReal ((-b - Real.sqrt (b^2 - 4*a*c))/(2*a)) =
            (-(b:ℂ) + (-((Real.sqrt (b^2 - 4*a*c) : ℝ) : ℂ)))/(2*(a:ℂ)) := by
          push_cast
          ring
        have hs2 : (-((Real.sqrt (b^2 - 4*a*c) : ℝ) : ℂ))^2 = (b:ℂ)^2 - 4*(a:ℂ)*(c:ℂ) := by
          rw [show (-((Real.sqrt (b^2 - 4*a*c) : ℝ) : ℂ))^2 =
            ((Real.sqrt (b^2 - 4*a*c) : ℝ) : ℂ)^2 from by ring]
          exact hs
        rw [hz, hform]
        exact quad_root_formula a b c _ ha hs2
    · rw [if_neg hd] at hz
      have hdlt : 0 ≤ 4*a*c - b^2 := by linarith
      have hs : ((Real.sqrt (4*a*c - b^2) : ℝ) : ℂ)^2 = 4*(a:ℂ)*(c:ℂ) - (b:ℂ)^2 := by
        rw [← Complex.ofReal_pow, Real.sq_sqrt hdlt]
        push_cast
        ring
      have hw : (((Real.sqrt (4*a*c - b^2) : ℝ) : ℂ) * Complex.I)^2 =
          (b:ℂ)^2 - 4*(a:ℂ)*(c:ℂ) := by
        rw [mul_pow, Complex.I_sq, hs]
        ring
      simp only [List.mem_cons, List.not_mem_nil, or_false] at hz
      rcases hz with hz | hz
      · have hform : (Complex.ofReal (-b) +
            Complex.ofReal (Real.sqrt (4*a*c - b^2)) * Complex.I) / Complex.ofReal (2*a) =
            (-(b:ℂ) + ((Real.sqrt (4*a*c - b^2) : ℝ) : ℂ) * Complex.I)/(2*(a:ℂ)) := by
          push_cast
          ring
        rw [hz, hform]
        exact quad_root_formula a b c _ ha hw
      · have hform : (Complex.ofReal (-b) -
            Complex.ofReal (Real.sqrt (4*a*c - b^2)) * Complex.I) / Complex.ofReal (2*a) =
            (-(b:ℂ) + (-(((Real.sqrt (4*a*c - b^2) : ℝ) : ℂ) * Complex.I)))/(2*(a:ℂ)) := by
          push_cast
          ring
        have hw2 : (-(((Real.sqrt (4*a*c - b^2) : ℝ) : ℂ) * Complex.I))^2 =
            (b:ℂ)^2 - 4*(a:ℂ)*(c:ℂ) := by
          rw [show (-(((Real.sqrt (4*a*c - b^2) : ℝ) : ℂ) * Complex.I))^2 =
            (((Real.sqrt (4*a*c - b^2) : ℝ) : ℂ) * Complex.I)^2 from by ring]
          exact hw
        rw [hz, hform]
        exact quad_root_formula a b c _ ha hw2

/-- C4: the quadratic solver forms the coefficients a = Rh*Rvsh - Rh*Rhsh,
b = Rv^2 + Rvsh*Rhsh - 2*Rh*Rhsh and c = Rv*Rhsh - Rh*Rhsh per sample,
finds the roots of a*Csh^2 + b*Csh + c = 0 (everything the root finder
returns is a root), and stores them by count: one root as (root, NaN),
two roots in the order of the root finder, no finite root as (NaN, NaN). -/
theorem quadratic_inversion_forms_and_stores (df : Frame) (RvshO RhshO : Option ℝ) :
    (quadratic_inversion df RvshO RhshO =
      (df.Rv.zip df.Rh).map (fun p =>
        match np_roots2 (p.2 * resolveRvsh df RvshO - p.2 * resolveRhsh df RhshO)
            (p.1^2 + resolveRvsh df RvshO * resolveRhsh df RhshO - 2*p.2*resolveRhsh df RhshO)
            (p.1 * resolveRhsh df RhshO - p.2 * resolveRhsh df RhshO) with
        | [r] => (some r, none)
        | [r1, r2] => (some r1, some r2)
        | _ => ((none : Option ℂ), (none : Option ℂ)))) ∧
    ∀ a b c : ℝ, ∀ z ∈ np_roots2 a b c, (a:ℂ)*z^2 + (b:ℂ)*z + (c:ℂ) = 0 := by
  constructor
  · unfold quadratic_inversion
    refine List.map_congr_left (fun p _ => ?_)
    rcases hr : np_roots2 (p.2 * resolveRvsh df RvshO - p.2 * resolveRhsh df RhshO)
        (p.1^2 + resolveRvsh df RvshO * resolveRhsh df RhshO - 2*p.2*resolveRhsh df RhshO)
        (p.1 * resolveRhsh df RhshO - p.2 * resolveRhsh df RhshO) with
      _ | ⟨r, _ | ⟨r2, tail⟩⟩ <;> simp [storeRoots]
  · exact np_roots2_is_root

/-- C4 (witness): the degenerate linear case at coefficients (0, 1, -2)
has the single root 2, and the root property holds there. -/
theorem quadratic_inversion_forms_and_stores_witness :
    ((0:ℝ):ℂ)*(2:ℂ)^2 + ((1:ℝ):ℂ)*(2:ℂ) + ((-2:ℝ):ℂ) = 0 :=
  (quadratic_inversion_forms_and_stores dfEx none none).2 0 1 (-2) 2
    (by norm_num [np_roots2])

/-- C8 (amended): each field of a stored root pair is either NaN (absent
root, modelled as `none`) or exactly one of the values returned by the
root finder, stored unchanged; a complex root is therefore stored as a
complex value, not converted to NaN. -/
theorem quadratic_fields_root_or_nan (df : Frame) (RvshO RhshO : Option ℝ) :
    ∀ q ∈ quadratic_inversion df RvshO RhshO,
      ∃ p ∈ df.Rv.zip df.Rh,
        (q.1 = none ∨ ∃ z ∈ np_roots2 (p.2 * resolveRvsh df RvshO - p.2 * resolveRhsh df RhshO)
            (p.1^2 + resolveRvsh df RvshO * resolveRhsh df RhshO - 2*p.2*resolveRhsh df RhshO)
            (p.1 * resolveRhsh df RhshO - p.2 * resolveRhsh df RhshO), q.1 = some z) ∧
        (q.2 = none ∨ ∃ z ∈ np_roots2 (p.2 * resolveRvsh df RvshO - p.2 * resolveRhsh df RhshO)
            (p.1^2 + resolveRvsh df RvshO * resolveRhsh df RhshO - 2*p.2*resolveRhsh df RhshO)
            (p.1 * resolveRhsh df RhshO - p.2 * resolveRhsh df RhshO), q.2 = some z) := by
  intro q hq
  unfold quadratic_inversion at hq
  obtain ⟨p, hp, hpq⟩ := List.mem_map.mp hq
  refine ⟨p, hp, ?_⟩
  rcases hL : np_roots2 (p.2 * resolveRvsh df RvshO - p.2 * resolveRhsh df RhshO)
      (p.1^2 + resolveRvsh df RvshO * resolveRhsh df RhshO - 2*p.2*resolveRhsh df RhshO)
      (p.1 * resolveRhsh df RhshO - p.2 * resolveRhsh df RhshO) with
    _ | ⟨r, tail⟩
  · rw [hL] at hpq
    rw [← hpq]
    exact ⟨Or.inl rfl, Or.inl rfl⟩
  · rcases tail with _ | ⟨r2, tail2⟩
    · rw [hL] at hpq
      rw [← hpq]
      refine ⟨Or.inr ⟨r, ?_, rfl⟩, Or.inl rfl⟩
      exact List.mem_cons_self r []
    · rcases tail2 with _ | ⟨r3, tail3⟩
      · rw [hL] at hpq
        rw [← hpq]
        refine ⟨Or.inr ⟨r, ?_, rfl⟩, Or.inr ⟨r2, ?_, rfl⟩⟩
        · exact List.mem_cons_self r _
        · exact List.mem_cons_of_mem r (List.mem_cons_self r2 _)
      · rw [hL] at hpq
        rw [← hpq]
        exact ⟨Or.inl rfl, Or.inl rfl⟩

/-- Concrete evaluation: on the one-sample frame with Rv = -1, Rh = 1 and
end-member overrides (1, 2), the quadratic coefficients are (-1, -1, -4). -/
lemma quadratic_inversion_bad_eval :
    quadratic_inversion dfBad (some 1) (some 2) =
      [storeRoots (np_roots2 (-1) (-1) (-4))] := by
  simp only [quadratic_inversion, dfBad, resolveRvsh, resolveRhsh, Option.getD_some,
    List.zip_cons_cons, List.zip_nil_right, List.map_cons, List.map_nil]
  norm_num

/-- Concrete evaluation: the roots at coefficients (-1, -1, -4) form the
conjugate complex pair with imaginary parts built from the square root of
15. -/
lemma np_roots2_bad_eval :
    np_roots2 (-1 : ℝ) (-1) (-4) =
      [(Complex.ofReal 1 + Complex.ofReal (Real.sqrt 15) * Complex.I) / Complex.ofReal (-2),
       (Complex.ofReal 1 - Complex.ofReal (Real.sqrt 15) * Complex.I) / Complex.ofReal (-2)] := by
  unfold np_roots2
  rw [if_neg (by norm_num), if_neg (by norm_num)]
  norm_num

/-- C8 (counterexample): on a concrete sample whose quadratic has negative
discriminant, the first stored field is a complex value with nonzero
imaginary part, so a complex root is not stored as NaN. -/
theorem quadratic_complex_root_stored :
    ∃ z : ℂ,
      ((quadratic_inversion dfBad (some 1) (some 2)).getD 0
          ((none : Option ℂ), (none : Option ℂ))).1 = some z ∧ z.im ≠ 0 := by
  refine ⟨(Complex.ofReal 1 + Complex.ofReal (Real.sqrt 15) * Complex.I) / Complex.ofReal (-2),
    ?_, ?_⟩
  · rw [quadratic_inversion_bad_eval, np_roots2_bad_eval]
    rfl
  · simp [Complex.div_im, Complex.normSq_ofReal]

/-- C8 (amended, witness): the root pair stored for the one concrete
sample of `dfBad` satisfies the root-or-NaN description. -/
theorem quadratic_fields_root_or_nan_witness :
    ∃ p ∈ dfBad.Rv.zip dfBad.Rh,
      ((storeRoots (np_roots2 (-1) (-1) (-4))).1 = none ∨
        ∃ z ∈ np_roots2 (p.2 * resolveRvsh dfBad (some 1) - p.2 * resolveRhsh dfBad (some 2))
            (p.1^2 + resolveRvsh dfBad (some 1) * resolveRhsh dfBad (some 2)
              - 2*p.2*resolveRhsh dfBad (some 2))
            (p.1 * resolveRhsh dfBad (some 2) - p.2 * resolveRhsh dfBad (some 2)),
          (storeRoots (np_roots2 (-1) (-1) (-4))).1 = some z) ∧
      ((storeRoots (np_roots2 (-1) (-1) (-4))).2 = none ∨
        ∃ z ∈ np_roots2 (p.2 * resolveRvsh dfBad (some 1) - p.2 * resolveRhsh dfBad (some 2))
            (p.1^2 + resolveRvsh dfBad (some 1) * resolveRhsh dfBad (some 2)
              - 2*p.2*resolveRhsh dfBad (some 2))
            (p.1 * resolveRhsh dfBad (some 2) - p.2 * resolveRhsh dfBad (some 2)),
          (storeRoots (np_roots2 (-1) (-1) (-4))).2 = some z) :=
  quadratic_fields_root_or_nan dfBad (some 1) (some 2)
    (storeRoots (np_roots2 (-1) (-1) (-4)))
    (by rw [quadratic_inversion_bad_eval]; exact List.mem_cons_self _ [])

/-- C7: whenever the minimizer honors the box passed to it (the documented
contract of the bounded solver at the bounds the code supplies), every
Csh in the returned table lies in [0, 1]; and no constraint ties the
returned Rs, which can be any value a bounds-honoring minimizer emits. -/
theorem nonlinear_csh_in_unit_interval (cfg : Config) (m : Minimizer)
    (h : RespectsCshBounds m) (df : Frame) (RvshO RhshO : Option ℝ) :
    (∀ c ∈ (resistivity_inversion_out cfg m df RvshO RhshO).Csh, 0 ≤ c ∧ c ≤ 1) ∧
    (∀ v : ℝ, ∃ m2 : Minimizer, RespectsCshBounds m2 ∧ ∀ df2 RvshO2 RhshO2,
      (resistivity_inversion_out cfg m2 df2 RvshO2 RhshO2).Rs =
        (df2.Rv.zip df2.Rh).map (fun _ => v)) := by
  constructor
  · intro c hc
    simp only [resistivity_inversion_out, List.map_map, List.mem_map, Function.comp,
      solveRow] at hc
    obtain ⟨p, _, hc⟩ := hc
    rw [← hc]
    exact h _ _ _ _ _
  · intro v
    refine ⟨fun _f _x0 _b _meth _tol _mi => { x := (0, v), fn := 0, jac := (0, 0), nfev := 0 },
      fun f x0 meth tol mi => by norm_num, fun df2 RvshO2 RhshO2 => ?_⟩
    simp [resistivity_inversion_out, solveRow, List.map_map, Function.comp]

/-- C7 (witness): with the concrete bounds-honoring minimizer `mW` and the
concrete frame `dfEx`, all returned Csh values lie in [0, 1]. -/
theorem nonlinear_csh_in_unit_interval_witness :
    (∀ c ∈ (resistivity_inversion_out cfgEx mW dfEx none none).Csh, 0 ≤ c ∧ c ≤ 1) ∧
    (∀ v : ℝ, ∃ m2 : Minimizer, RespectsCshBounds m2 ∧ ∀ df2 RvshO2 RhshO2,
      (resistivity_inversion_out cfgEx m2 df2 RvshO2 RhshO2).Rs =
        (df2.Rv.zip df2.Rh).map (fun _ => v)) :=
  nonlinear_csh_in_unit_interval cfgEx mW
    (fun f x0 meth tol mi => by norm_num [mW]) dfEx none none

/-- Folding min never rises above the initial accumulator. -/
lemma foldl_min_le_init (xs : List ℝ) (a : ℝ) : xs.foldl min a ≤ a := by
  induction xs generalizing a with
  | nil => exact le_refl a
  | cons x xs ih => exact le_trans (ih (min a x)) (min_le_left a x)

/-- Folding min never rises above any list member. -/
lemma foldl_min_le_mem (xs : List ℝ) (a : ℝ) : ∀ g ∈ xs, xs.foldl min a ≤ g := by
  induction xs generalizing a with
  | nil => exact fun g hg => absurd hg (List.not_mem_nil g)
  | cons x xs ih =>
    intro g hg
    rcases List.mem_cons.mp hg with hg | hg
    · subst hg
      exact le_trans (foldl_min_le_init xs (min a g)) (min_le_right a g)
    · exact ih (min a x) g hg

/-- The column minimum is a lower bound of the column. -/
lemma listMin_le_mem (l : List ℝ) : ∀ g ∈ l, listMin l ≤ g := by
  cases l with
  | nil => exact fun g hg => absurd hg (List.not_mem_nil g)
  | cons x xs =>
    intro g hg
    rcases List.mem_cons.mp hg with hg | hg
    · subst hg
      exact foldl_min_le_init xs g
    · exact foldl_min_le_mem xs x g hg

/-- Folding max never falls below the initial accumulator. -/
lemma le_foldl_max_init (xs : List ℝ) (a : ℝ) : a ≤ xs.foldl max a := by
  induction xs generalizing a with
  | nil => exact le_refl a
  | cons x xs ih => exact le_trans (le_max_left a x) (ih (max a x))

/-- Folding max never falls below any list member. -/
lemma le_foldl_max_mem (xs : List ℝ) (a : ℝ) : ∀ g ∈ xs, g ≤ xs.foldl max a := by
  induction xs generalizing a with
  | nil => exact fun g hg => absurd hg (List.not_mem_nil g)
  | cons x xs ih =>
    intro g hg
    rcases List.mem_cons.mp hg with hg | hg
    · subst hg
      exact le_trans (le_max_right a g) (le_foldl_max_init xs (max a g))
    · exact ih (max a x) g hg

/-- The column maximum is an upper bound of the column. -/
lemma le_listMax_mem (l : List ℝ) : ∀ g ∈ l, g ≤ listMax l := by
  cases l with
  | nil => exact fun g hg => absurd hg (List.not_mem_nil g)
  | cons x xs =>
    intro g hg
    rcases List.mem_cons.mp hg with hg | hg
    · subst hg
      exact le_foldl_max_init xs g
    · exact le_foldl_max_mem xs x g hg

/-- C10: when the GR values are not all equal, the returned table carries
the Csh_lin column equal to the min-max normalization of GR, computed
independently of the solver (the statement holds for every minimizer),
and each of its entries lies in [0, 1]. -/
theorem csh_lin_normalized_column (cfg : Config) (m : Minimizer) (df : Frame)
    (RvshO RhshO : Option ℝ) (h : listMin df.GR < listMax df.GR) :
    (resistivity_inversion_out cfg m df RvshO RhshO).Csh_lin =
      df.GR.map (fun g => (g - listMin df.GR) / (listMax df.GR - listMin df.GR)) ∧
    ∀ x ∈ (resistivity_inversion_out cfg m df RvshO RhshO).Csh_lin, 0 ≤ x ∧ x ≤ 1 := by
  have hpos : 0 < listMax df.GR - listMin df.GR := sub_pos.mpr h
  refine ⟨rfl, ?_⟩
  intro x hx
  have hx2 : x ∈ cshLin df := hx
  simp only [cshLin, List.mem_map] at hx2
  obtain ⟨g, hg, rfl⟩ := hx2
  constructor
  · exact div_nonneg (sub_nonneg.mpr (listMin_le_mem df.GR g hg)) (le_of_lt hpos)
  · rw [div_le_one hpos]
    have := le_listMax_mem df.GR g hg
    linarith

/-- C10 (witness): on the concrete frame with GR = [5, 0], the Csh_lin
column is the min-max normalization and sits inside [0, 1]. -/
theorem csh_lin_normalized_column_witness :
    (resistivity_inversion_out cfgEx mEx dfEx none none).Csh_lin =
      dfEx.GR.map (fun g => (g - listMin dfEx.GR) / (listMax dfEx.GR - listMin dfEx.GR)) ∧
    ∀ x ∈ (resistivity_inversion_out cfgEx mEx dfEx none none).Csh_lin, 0 ≤ x ∧ x ≤ 1 :=
  csh_lin_normalized_column cfgEx mEx dfEx none none
    (by norm_num [dfEx, listMin, listMax, min_def, max_def])

end ARI
